import Mathlib

/-!
Verification of the P-site offset estimation program (`psite_trimmed.py`)
of the ORF-RATER repository.

The program builds a 2-D histogram of per-read-length offset tallies around
annotated start codons, reduces per-(chromosome, strand) tally matrices by
element-wise addition, and resolves one offset per read length by anchoring
every row to the most-populated row via a full cross-correlation.

This file shallowly embeds the relevant pieces:
 - `gcoorddict` (lines 32-43): the annotation index, per-(chrom, strand)
   sets of start-codon coordinates;
 - `offset_to_gcoord` (lines 46-50): read-relative offset of a genomic
   coordinate;
 - `tallyRead` / `map_start_sites` (lines 66-81): the tally accumulator;
 - `matSum` (line 84): element-wise reduction of the per-unit matrices;
 - `master_rdlen_idx`, `master_offset`, `offsets` (lines 95-97): the
   cross-correlation offset resolver, with `np.argmax` (first maximum wins)
   modelled by `argmaxL` and `np.correlate(a, v, full)` by `correlateFull`;
 - `offset_lines` (lines 99-102) and `mainFlow` (lines 83-104): the output
   writer and the success/failure control flow of the top level.

Counts are modelled by `Nat` (the tallies are `np.uint32` counts, converted
to `float64` only so that the correlation arithmetic is exact; all values
involved are integers, so `Nat` arithmetic is faithful), and resolved
offsets by `Int` (they may be negative).
-/

/-- Model of `np.argmax` on a 1-D array: index of the first occurrence of
the maximum value. `np.argmax` scans in increasing index order and keeps
the first maximal index. On the empty list we return 0 (numpy raises; the
program only applies it to nonempty arrays). -/
def argmaxL : List Nat → Nat
  | [] => 0
  | x :: xs =>
    let r := argmaxL xs
    if x < xs.getD r 0 then r + 1 else 0

/-- Element `k` of `np.correlate(a, v, 'full')`:
`c[k] = Σ_j a[j + k + 1 - v.length] * v[j]`, where out-of-range accesses
of `a` contribute 0 (the guard handles the left overhang, `List.getD`
the right overhang). -/
def corrAt (a v : List Nat) (k : Nat) : Nat :=
  ∑ j in Finset.range v.length,
    if v.length ≤ j + k + 1 then a.getD (j + k + 1 - v.length) 0 * v.getD j 0 else 0

/-- Model of `np.correlate(a, v, 'full')`: all lag positions where the two
vectors overlap at least partially, `a.length + v.length - 1` of them. -/
def correlateFull (a v : List Nat) : List Nat :=
  (List.range (a.length + v.length - 1)).map (corrAt a v)

/-- Model of a pysam aligned read, as used by the program: the ordered
sequence of genomic positions covered by the read (`read.positions`),
its orientation (`read.is_reverse`), and the result of the external
`read_length_nmis` collaborator (trimmed read length and number of
5-prime mismatches), carried as opaque fields. -/
structure Read where
  positions : List Nat
  is_reverse : Bool
  rdlen : Nat
  nmis : Nat

/-- Model of `next((idx for (idx, pos) in enumerate(positions) if pos == gcoord), None)`:
index of the first element equal to `gcoord`, or `none`. -/
def findIdxFrom (gcoord : Nat) : List Nat → Option Nat
  | [] => none
  | p :: ps => if p = gcoord then some 0 else (findIdxFrom gcoord ps).map (· + 1)

/-- Model of `offset_to_gcoord` (psite_trimmed.py lines 46-50): the
read-relative offset of `gcoord`, measured from the 5-prime end of the
read; `none` when no covered position matches. -/
def offset_to_gcoord (read : Read) (gcoord : Nat) : Option Nat :=
  if read.is_reverse then
    (findIdxFrom gcoord read.positions).map (fun idx => read.positions.length - idx - 1)
  else
    findIdxFrom gcoord read.positions

/- Basic facts about `argmaxL`. -/

theorem argmaxL_lt_length (l : List Nat) (h : l ≠ []) : argmaxL l < l.length := by
  induction l with
  | nil => cases h rfl
  | cons x xs ih =>
    simp only [argmaxL]
    by_cases hx : x < xs.getD (argmaxL xs) 0
    · have hxs : xs ≠ [] := by
        intro hnil
        subst hnil
        simp [argmaxL] at hx
      simp only [if_pos hx, List.length_cons]
      exact Nat.succ_lt_succ (ih hxs)
    · rw [if_neg hx]
      simp

theorem argmaxL_is_max (l : List Nat) :
    ∀ j, j < l.length → l.getD j 0 ≤ l.getD (argmaxL l) 0 := by
  induction l with
  | nil => intro j hj; simp at hj
  | cons x xs ih =>
    intro j hj
    simp only [argmaxL]
    by_cases hx : x < xs.getD (argmaxL xs) 0
    · simp only [if_pos hx]
      cases j with
      | zero => simpa using le_of_lt hx
      | succ j' =>
        simp only [List.getD_cons_succ]
        exact ih j' (by simpa using Nat.lt_of_succ_lt_succ hj)
    · simp only [if_neg hx]
      push_neg at hx
      cases j with
      | zero => simp
      | succ j' =>
        simp only [List.getD_cons_succ, List.getD_cons_zero]
        exact le_trans (ih j' (by simpa using Nat.lt_of_succ_lt_succ hj)) hx

theorem argmaxL_first (l : List Nat) :
    ∀ j, j < argmaxL l → l.getD j 0 < l.getD (argmaxL l) 0 := by
  induction l with
  | nil => intro j hj; simp [argmaxL] at hj
  | cons x xs ih =>
    intro j hj
    simp only [argmaxL] at hj ⊢
    by_cases hx : x < xs.getD (argmaxL xs) 0
    · simp only [if_pos hx] at hj ⊢
      cases j with
      | zero => simpa using hx
      | succ j' =>
        simp only [List.getD_cons_succ]
        exact ih j' (Nat.lt_of_succ_lt_succ hj)
    · simp only [if_neg hx] at hj
      exact absurd hj (Nat.not_lt_zero j)

/-- If position `i` holds a strict maximum, `argmaxL` returns `i`. -/
theorem argmaxL_of_strict (l : List Nat) (i : Nat) (hi : i < l.length)
    (hstrict : ∀ j, j < l.length → j ≠ i → l.getD j 0 < l.getD i 0) :
    argmaxL l = i := by
  by_contra hne
  have hlen : l ≠ [] := by
    intro hnil; subst hnil; simp at hi
  have h1 : l.getD (argmaxL l) 0 < l.getD i 0 :=
    hstrict (argmaxL l) (argmaxL_lt_length l hlen) hne
  have h2 : l.getD i 0 ≤ l.getD (argmaxL l) 0 := argmaxL_is_max l i hi
  omega

/-- If every element of the list is zero, `argmaxL` returns 0. -/
theorem argmaxL_of_zero (l : List Nat) (h : ∀ x ∈ l, x = 0) : argmaxL l = 0 := by
  cases l with
  | nil => rfl
  | cons x xs =>
    simp only [argmaxL]
    have hx : x = 0 := h x (List.mem_cons_self x xs)
    have hr : xs.getD (argmaxL xs) 0 = 0 := by
      rcases Nat.lt_or_ge (argmaxL xs) xs.length with hlt | hge
      · rw [List.getD_eq_getElem xs 0 hlt]
        exact h _ (List.mem_cons_of_mem x (List.getElem_mem hlt))
      · exact List.getD_eq_default _ _ hge
    rw [hx, hr]
    simp

/- Basic facts about `findIdxFrom`. -/

theorem findIdxFrom_lt_length (g : Nat) (l : List Nat) (i : Nat)
    (h : findIdxFrom g l = some i) : i < l.length := by
  induction l generalizing i with
  | nil => simp [findIdxFrom] at h
  | cons p ps ih =>
    simp only [findIdxFrom] at h
    by_cases hp : p = g
    · simp only [if_pos hp, Option.some.injEq] at h
      subst h
      simp
    · simp only [if_neg hp, Option.map_eq_some'] at h
      obtain ⟨i', hi', rfl⟩ := h
      have := ih i' hi'
      simp only [List.length_cons]
      omega

theorem findIdxFrom_spec (g : Nat) (l : List Nat) (i : Nat)
    (h : findIdxFrom g l = some i) :
    l.getD i 0 = g ∧ ∀ j, j < i → l.getD j 0 ≠ g := by
  induction l generalizing i with
  | nil => simp [findIdxFrom] at h
  | cons p ps ih =>
    simp only [findIdxFrom] at h
    by_cases hp : p = g
    · simp only [if_pos hp, Option.some.injEq] at h
      subst h
      exact ⟨hp, by omega⟩
    · simp only [if_neg hp, Option.map_eq_some'] at h
      obtain ⟨i', hi', rfl⟩ := h
      obtain ⟨h1, h2⟩ := ih i' hi'
      refine ⟨by simpa using h1, ?_⟩
      intro j hj
      cases j with
      | zero => simpa using hp
      | succ j' =>
        simp only [List.getD_cons_succ]
        exact h2 j' (by omega)

theorem findIdxFrom_eq_none (g : Nat) (l : List Nat) (h : g ∉ l) :
    findIdxFrom g l = none := by
  induction l with
  | nil => rfl
  | cons p ps ih =>
    simp only [findIdxFrom]
    have hp : p ≠ g := by
      intro hpg; exact h (hpg ▸ List.mem_cons_self p ps)
    rw [if_neg hp, ih (fun hm => h (List.mem_cons_of_mem p hm))]
    rfl

theorem findIdxFrom_isSome (g : Nat) (l : List Nat) (h : g ∈ l) :
    ∃ i, findIdxFrom g l = some i := by
  induction l with
  | nil => simp at h
  | cons p ps ih =>
    simp only [findIdxFrom]
    by_cases hp : p = g
    · exact ⟨0, by rw [if_pos hp]⟩
    · have hmem : g ∈ ps := by
        rcases List.mem_cons.mp h with hpg | hmem
        · exact absurd hpg.symm hp
        · exact hmem
      obtain ⟨i, hi⟩ := ih hmem
      exact ⟨i + 1, by rw [if_neg hp, hi]; rfl⟩

/-- Configuration of the program: minimum and maximum permitted read length
(inclusive) and maximum permitted 5-prime mismatches. -/
structure Opts where
  minrdlen : Nat
  maxrdlen : Nat
  max5mis : Nat

/-- A tally matrix, as a function from (row, column) to count. The program
allocates shape `(maxrdlen + 1 - minrdlen, maxrdlen)`; only indices inside
that shape are ever written (verified below). -/
def MatF : Type := Nat → Nat → Nat

/-- The zero matrix (`np.zeros`). -/
def matZero : MatF := fun _ _ => 0

/-- Element-wise matrix addition. -/
def matAdd (m1 m2 : MatF) : MatF := fun i j => m1 i j + m2 i j

/-- Model of Python `sum(list_of_matrices)`: left fold of element-wise
addition starting from zero. -/
def matSum (l : List MatF) : MatF := l.foldl matAdd matZero

/-- The body of the inner loop of `map_start_sites` (psite_trimmed.py
lines 72-76): compute `(rdlen, nmis)`, apply the length/mismatch filter,
compute the read-relative offset, and tally
`offset_tallies[rdlen - minrdlen, curr_offset - nmis] += 1` when the
offset is found and at least `nmis`. -/
def tallyRead (opts : Opts) (m : MatF) (gcoord : Nat) (read : Read) : MatF :=
  if opts.minrdlen ≤ read.rdlen ∧ read.rdlen ≤ opts.maxrdlen ∧ read.nmis ≤ opts.max5mis then
    match offset_to_gcoord read gcoord with
    | some curr_offset =>
      if read.nmis ≤ curr_offset then
        fun i j =>
          if i = read.rdlen - opts.minrdlen ∧ j = curr_offset - read.nmis then m i j + 1
          else m i j
      else m
    | none => m
  else m

/-- Model of `map_start_sites` (psite_trimmed.py lines 66-81) for one
(chromosome, strand) work unit: the external `get_reads` collaborator is
abstracted as a function `reads` from a genomic coordinate to the list of
strand-matching reads overlapping it, and `gcoords` is the unit's
start-codon coordinate set in its iteration order. -/
def map_start_sites (opts : Opts) (reads : Nat → List Read) (gcoords : List Nat) : MatF :=
  gcoords.foldl (fun m g => (reads g).foldl (fun m2 rd => tallyRead opts m2 g rd) m) matZero

/-- One annotation (BED) record, restricted to the fields the program
reads: column 0 (chromosome), column 5 (strand), columns 6 and 7
(thickStart, thickEnd). -/
structure BedRecord where
  chrom : String
  strand : String
  thickstart : Nat
  thickend : Nat

/-- Start-codon coordinate derived from a record: `thickstart` on the
forward strand, `thickend - 1` otherwise (lines 40-43). -/
def startCoord (r : BedRecord) : Nat :=
  if r.strand = "+" then r.thickstart else r.thickend - 1

/-- Processing of one BED line (lines 34-43): records with an empty thick
region are skipped; otherwise the derived coordinate is inserted into the
set for the record's (chromosome, strand) key. -/
def gcoordStep (d : String × String → Finset Nat) (r : BedRecord) :
    String × String → Finset Nat :=
  if r.thickstart ≠ r.thickend then
    fun key => if key = (r.chrom, r.strand) then insert (startCoord r) (d key) else d key
  else d

/-- Model of `gcoorddict` (psite_trimmed.py lines 32-43): per-(chromosome,
strand) sets of unique start-codon coordinates, built by folding over the
annotation records in input order. -/
def gcoorddict (records : List BedRecord) : String × String → Finset Nat :=
  records.foldl gcoordStep (fun _ => ∅)

/-- Row `master_rdlen_idx` (line 95): index of the row with the maximum
total count, first occurrence winning. -/
def master_rdlen_idx (m : List (List Nat)) : Nat :=
  argmaxL (m.map (fun row => row.sum))

/-- Column `master_offset` (line 96): index of the maximum value within
the master row, first occurrence winning. -/
def master_offset (m : List (List Nat)) : Nat :=
  argmaxL (m.getD (master_rdlen_idx m) [])

/-- Model of the `offsets` list comprehension (line 97):
`master_offset + argmax(correlate(row, master_row, full)) + 1 - maxrdlen`
for every row of the aggregate tally matrix. -/
def offsets (m : List (List Nat)) (maxrdlen : Nat) : List Int :=
  m.map (fun row =>
    (master_offset m : Int)
      + (argmaxL (correlateFull row (m.getD (master_rdlen_idx m) [])) : Int)
      + 1 - (maxrdlen : Int))

/-- Rows of a function-represented matrix of the given shape, used to hand
the aggregate of the tally phase to the resolver. -/
def matRows (m : MatF) (nrows ncols : Nat) : List (List Nat) :=
  (List.range nrows).map (fun i => (List.range ncols).map (fun j => m i j))

/-- Model of the offset-table writer (lines 99-102): one line
`(minrdlen + i) TAB offset_i` per row, in row order. -/
def offset_lines (minrdlen : Nat) (offs : List Int) : List String :=
  (List.range offs.length).map
    (fun i => toString (minrdlen + i) ++ "\t" ++ toString (offs.getD i 0))

/-- The aggregate tally matrix (line 84): element-wise sum of the per-unit
matrices, with `units` listing each work unit's coordinate list in
iteration order. -/
def offset_tallies (opts : Opts) (reads : Nat → List Read) (units : List (List Nat)) : MatF :=
  matSum (units.map (map_start_sites opts reads))

/-- The full offset-table output of a run: tally, reduce, resolve, format. -/
def pipeline_lines (opts : Opts) (reads : Nat → List Read) (units : List (List Nat)) :
    List String :=
  offset_lines opts.minrdlen
    (offsets
      (matRows (offset_tallies opts reads units) (opts.maxrdlen + 1 - opts.minrdlen)
        opts.maxrdlen)
      opts.maxrdlen)

/-- Observable outcome of the top-level script. -/
structure RunOutcome where
  offsetsWritten : Bool
  bamsClosed : Bool

/-- Model of the top-level control flow of psite_trimmed.py (lines 83-104).
The script is straight-line code: the alignment files are opened at line 30,
the tally/reduce/resolve computation runs at lines 83-97, the offset table
is written at lines 99-102, and `inbam.close()` runs at lines 103-104.
There is no try/finally or with-block around the computation, so an
exception raised inside it (modelled by `computeFails = true`) propagates
past both the write and the close calls; they execute only on the success
path. -/
def mainFlow (computeFails : Bool) : RunOutcome :=
  if computeFails then { offsetsWritten := false, bamsClosed := false }
  else { offsetsWritten := true, bamsClosed := true }

/-- Contribution of one read at one coordinate to one cell of the tally
matrix: 1 exactly when every filter passes and (i, j) is the target cell. -/
def tallyDelta (opts : Opts) (gcoord : Nat) (rd : Read) (i j : Nat) : Nat :=
  match offset_to_gcoord rd gcoord with
  | some o =>
    if opts.minrdlen ≤ rd.rdlen ∧ rd.rdlen ≤ opts.maxrdlen ∧ rd.nmis ≤ opts.max5mis
        ∧ rd.nmis ≤ o ∧ i = rd.rdlen - opts.minrdlen ∧ j = o - rd.nmis then 1 else 0
  | none => 0

/-- Lag-`s` autocorrelation sum of a vector, the common value of the full
cross-correlation of a vector with itself at lags `s` and `-s`. -/
def autocorrSum (a : List Nat) (s : Nat) : Nat :=
  ∑ j in Finset.range a.length, a.getD j 0 * a.getD (j + s) 0

/- Helper lemmas. -/

theorem getD_map_of_lt {α β : Type} (f : α → β) (l : List α) (j : Nat)
    (hj : j < l.length) (dβ : β) (dα : α) :
    (l.map f).getD j dβ = f (l.getD j dα) := by
  rw [List.getD_eq_getElem _ _ (by simpa using hj), List.getD_eq_getElem _ _ hj]
  simp

theorem getD_eq_zero_of_all_zero (l : List Nat) (h : ∀ x ∈ l, x = 0) (n : Nat) :
    l.getD n 0 = 0 := by
  rcases Nat.lt_or_ge n l.length with hlt | hge
  · rw [List.getD_eq_getElem l 0 hlt]
    exact h _ (List.getElem_mem hlt)
  · exact List.getD_eq_default _ _ hge

theorem offset_to_gcoord_lt_length (rd : Read) (g o : Nat)
    (h : offset_to_gcoord rd g = some o) : o < rd.positions.length := by
  unfold offset_to_gcoord at h
  by_cases hrev : rd.is_reverse = true
  · rw [if_pos hrev] at h
    rw [Option.map_eq_some'] at h
    obtain ⟨i, hi, rfl⟩ := h
    have := findIdxFrom_lt_length g _ i hi
    omega
  · rw [if_neg hrev] at h
    exact findIdxFrom_lt_length g _ o h

/-- C3: `offset_to_gcoord` returns, for a forward-strand read whose covered
positions contain the coordinate, `some` of the 0-based index of the first
matching position (and only that); for a reverse-strand read,
`some (count - 1 - index)` with `index` defined identically; `none` (never
an exception or an out-of-range index) exactly when no covered position
matches; and on the concrete examples, the forward read covering
[100,101,102,103] queried at 100 yields 0 and the reverse read covering
the same positions queried at 103 yields 0. -/
theorem offset_to_gcoord_spec (rd : Read) (g : Nat) :
    (rd.is_reverse = false → ∀ i, offset_to_gcoord rd g = some i →
        rd.positions.getD i 0 = g ∧ ∀ j, j < i → rd.positions.getD j 0 ≠ g)
    ∧ (rd.is_reverse = true → ∀ k, offset_to_gcoord rd g = some k →
        ∃ i, rd.positions.getD i 0 = g ∧ (∀ j, j < i → rd.positions.getD j 0 ≠ g) ∧
          k = rd.positions.length - 1 - i)
    ∧ (rd.is_reverse = false → g ∈ rd.positions →
        ∃ i, offset_to_gcoord rd g = some i ∧ rd.positions.getD i 0 = g ∧
          ∀ j, j < i → rd.positions.getD j 0 ≠ g)
    ∧ (rd.is_reverse = true → g ∈ rd.positions →
        ∃ i, rd.positions.getD i 0 = g ∧ (∀ j, j < i → rd.positions.getD j 0 ≠ g) ∧
          offset_to_gcoord rd g = some (rd.positions.length - 1 - i))
    ∧ (g ∉ rd.positions → offset_to_gcoord rd g = none)
    ∧ (∀ k, offset_to_gcoord rd g = some k → k < rd.positions.length)
    ∧ offset_to_gcoord ⟨[100, 101, 102, 103], false, 4, 0⟩ 100 = some 0
    ∧ offset_to_gcoord ⟨[100, 101, 102, 103], true, 4, 0⟩ 103 = some 0 := by
  refine ⟨?_, ?_, ?_, ?_, ?_, ?_, by decide, by decide⟩
  · intro hfwd i h
    unfold offset_to_gcoord at h
    rw [hfwd] at h
    simp only [Bool.false_eq_true, if_false] at h
    exact findIdxFrom_spec g _ i h
  · intro hrev k h
    unfold offset_to_gcoord at h
    rw [if_pos hrev, Option.map_eq_some'] at h
    obtain ⟨i, hi, rfl⟩ := h
    obtain ⟨h1, h2⟩ := findIdxFrom_spec g _ i hi
    exact ⟨i, h1, h2, by omega⟩
  · intro hfwd hmem
    obtain ⟨i, hi⟩ := findIdxFrom_isSome g rd.positions hmem
    obtain ⟨h1, h2⟩ := findIdxFrom_spec g _ i hi
    refine ⟨i, ?_, h1, h2⟩
    unfold offset_to_gcoord
    rw [hfwd]
    simp only [Bool.false_eq_true, if_false]
    exact hi
  · intro hrev hmem
    obtain ⟨i, hi⟩ := findIdxFrom_isSome g rd.positions hmem
    obtain ⟨h1, h2⟩ := findIdxFrom_spec g _ i hi
    refine ⟨i, h1, h2, ?_⟩
    unfold offset_to_gcoord
    rw [if_pos hrev, hi]
    have : rd.positions.length - i - 1 = rd.positions.length - 1 - i := by omega
    rw [Option.map_some', this]
  · intro hnot
    unfold offset_to_gcoord
    rw [findIdxFrom_eq_none g _ hnot]
    by_cases hrev : rd.is_reverse = true
    · rw [if_pos hrev]; rfl
    · rw [if_neg hrev]
  · exact fun k h => offset_to_gcoord_lt_length rd g k h

/-- Closed instance of `offset_to_gcoord_spec`: a read not covering the
query coordinate yields the not-found sentinel. -/
theorem offset_to_gcoord_spec_witness :
    offset_to_gcoord ⟨[100, 101], false, 2, 0⟩ 50 = none :=
  (offset_to_gcoord_spec ⟨[100, 101], false, 2, 0⟩ 50).2.2.2.2.1 (by decide)

/-- Membership in the annotation-index fold, for an arbitrary initial
accumulator. -/
theorem gcoorddict_foldl_mem (records : List BedRecord)
    (d : String × String → Finset Nat) (key : String × String) (c : Nat) :
    (c ∈ records.foldl gcoordStep d key ↔
      c ∈ d key ∨ ∃ r ∈ records, r.thickstart ≠ r.thickend ∧
        key = (r.chrom, r.strand) ∧ c = startCoord r) := by
  induction records generalizing d with
  | nil => simp
  | cons r rs ih =>
    simp only [List.foldl_cons]
    rw [ih]
    have hstep : c ∈ gcoordStep d r key ↔
        c ∈ d key ∨ (r.thickstart ≠ r.thickend ∧ key = (r.chrom, r.strand) ∧
          c = startCoord r) := by
      unfold gcoordStep
      by_cases hth : r.thickstart ≠ r.thickend
      · rw [if_pos hth]
        by_cases hkey : key = (r.chrom, r.strand)
        · rw [if_pos hkey]
          simp only [Finset.mem_insert]
          constructor
          · rintro (rfl | hc)
            · exact Or.inr ⟨hth, hkey, rfl⟩
            · exact Or.inl hc
          · rintro (hc | ⟨_, _, rfl⟩)
            · exact Or.inr hc
            · exact Or.inl rfl
        · rw [if_neg hkey]
          simp only [iff_self_or]
          rintro ⟨_, hk, _⟩
          exact absurd hk hkey
      · rw [if_neg hth]
        simp only [iff_self_or]
        rintro ⟨hk, _, _⟩
        exact absurd hk hth
    rw [hstep]
    simp only [List.mem_cons]
    constructor
    · rintro (hc | ⟨r', hr', hprop⟩)
      · rcases hc with hc | hprop
        · exact Or.inl hc
        · exact Or.inr ⟨r, Or.inl rfl, hprop⟩
      · exact Or.inr ⟨r', Or.inr hr', hprop⟩
    · rintro (hc | ⟨r', hr' | hr', hprop⟩)
      · exact Or.inl (Or.inl hc)
      · exact Or.inl (Or.inr (hr' ▸ hprop))
      · exact Or.inr ⟨r', hr', hprop⟩

/-- C5: the annotation index contains, for each (chromosome, strand) key,
exactly the coordinates derived as `thickstart` for forward-strand records
and `thickend - 1` otherwise, excluding records with an empty thick region;
set semantics makes each coordinate appear exactly once, so duplicating the
whole record stream leaves the index unchanged. -/
theorem gcoorddict_spec (records : List BedRecord) (key : String × String) (c : Nat) :
    (c ∈ gcoorddict records key ↔
      ∃ r ∈ records, r.thickstart ≠ r.thickend ∧ key = (r.chrom, r.strand) ∧
        c = startCoord r)
    ∧ gcoorddict (records ++ records) = gcoorddict records := by
  constructor
  · rw [gcoorddict, gcoorddict_foldl_mem]
    simp
  · funext k
    apply Finset.ext
    intro x
    rw [gcoorddict, gcoorddict, gcoorddict_foldl_mem, gcoorddict_foldl_mem]
    simp only [List.mem_append]
    constructor
    · rintro (h | ⟨r, hr | hr, hprop⟩)
      · exact Or.inl h
      · exact Or.inr ⟨r, hr, hprop⟩
      · exact Or.inr ⟨r, hr, hprop⟩
    · rintro (h | ⟨r, hr, hprop⟩)
      · exact Or.inl h
      · exact Or.inr ⟨r, Or.inl hr, hprop⟩


theorem tallyDelta_some (opts : Opts) (g : Nat) (rd : Read) (i j o : Nat)
    (hoff : offset_to_gcoord rd g = some o) :
    tallyDelta opts g rd i j =
      if opts.minrdlen ≤ rd.rdlen ∧ rd.rdlen ≤ opts.maxrdlen ∧ rd.nmis ≤ opts.max5mis
          ∧ rd.nmis ≤ o ∧ i = rd.rdlen - opts.minrdlen ∧ j = o - rd.nmis then 1 else 0 := by
  unfold tallyDelta
  rw [hoff]

theorem tallyDelta_none (opts : Opts) (g : Nat) (rd : Read) (i j : Nat)
    (hoff : offset_to_gcoord rd g = none) :
    tallyDelta opts g rd i j = 0 := by
  unfold tallyDelta
  rw [hoff]

theorem tallyRead_some (opts : Opts) (m : MatF) (g : Nat) (rd : Read) (o : Nat)
    (hoff : offset_to_gcoord rd g = some o) :
    tallyRead opts m g rd =
      if opts.minrdlen ≤ rd.rdlen ∧ rd.rdlen ≤ opts.maxrdlen ∧ rd.nmis ≤ opts.max5mis then
        if rd.nmis ≤ o then
          fun i j =>
            if i = rd.rdlen - opts.minrdlen ∧ j = o - rd.nmis then m i j + 1 else m i j
        else m
      else m := by
  unfold tallyRead
  rw [hoff]

theorem tallyRead_none (opts : Opts) (m : MatF) (g : Nat) (rd : Read)
    (hoff : offset_to_gcoord rd g = none) :
    tallyRead opts m g rd = m := by
  unfold tallyRead
  rw [hoff]
  split <;> rfl

/-- Pointwise description of the tally step: each cell grows by its
`tallyDelta`. -/
theorem tallyRead_apply (opts : Opts) (m : MatF) (g : Nat) (rd : Read) (i j : Nat) :
    tallyRead opts m g rd i j = m i j + tallyDelta opts g rd i j := by
  cases hoff : offset_to_gcoord rd g with
  | none =>
    rw [tallyRead_none opts m g rd hoff, tallyDelta_none opts g rd i j hoff]
    omega
  | some o =>
    rw [tallyRead_some opts m g rd o hoff, tallyDelta_some opts g rd i j o hoff]
    by_cases hlen : opts.minrdlen ≤ rd.rdlen ∧ rd.rdlen ≤ opts.maxrdlen ∧
        rd.nmis ≤ opts.max5mis
    · rw [if_pos hlen]
      by_cases hno : rd.nmis ≤ o
      · rw [if_pos hno]
        by_cases hcell : i = rd.rdlen - opts.minrdlen ∧ j = o - rd.nmis
        · rw [if_pos hcell, if_pos ⟨hlen.1, hlen.2.1, hlen.2.2, hno, hcell.1, hcell.2⟩]
        · rw [if_neg hcell, if_neg (by tauto)]
          omega
      · rw [if_neg hno, if_neg (by tauto)]
        omega
    · rw [if_neg hlen, if_neg (by tauto)]
      omega

/-- C2: the tally step increments `matrix[rdlen - minrdlen][offset - nmis]`
by exactly 1 if and only if the trimmed length is in
`[minrdlen, maxrdlen]`, the mismatch count is at most the configured
maximum, the offset is found and is at least the mismatch count; in
particular a read with `rdlen = minrdlen - 1` (for any configuration with
a positive minimum length) or with `nmis > max5mis` leaves the matrix
untouched. -/
theorem tallyRead_iff (opts : Opts) (m : MatF) (g : Nat) (rd : Read) :
    (∀ i j o, offset_to_gcoord rd g = some o →
        opts.minrdlen ≤ rd.rdlen → rd.rdlen ≤ opts.maxrdlen →
        rd.nmis ≤ opts.max5mis → rd.nmis ≤ o →
        i = rd.rdlen - opts.minrdlen → j = o - rd.nmis →
        tallyRead opts m g rd i j = m i j + 1)
    ∧ (∀ i j, ¬(∃ o, offset_to_gcoord rd g = some o ∧
          opts.minrdlen ≤ rd.rdlen ∧ rd.rdlen ≤ opts.maxrdlen ∧
          rd.nmis ≤ opts.max5mis ∧ rd.nmis ≤ o ∧
          i = rd.rdlen - opts.minrdlen ∧ j = o - rd.nmis) →
        tallyRead opts m g rd i j = m i j)
    ∧ (0 < opts.minrdlen → rd.rdlen = opts.minrdlen - 1 → tallyRead opts m g rd = m)
    ∧ (opts.max5mis < rd.nmis → tallyRead opts m g rd = m) := by
  refine ⟨?_, ?_, ?_, ?_⟩
  · intro i j o hoff h1 h2 h3 h4 hi hj
    rw [tallyRead_apply, tallyDelta_some opts g rd i j o hoff,
      if_pos ⟨h1, h2, h3, h4, hi, hj⟩]
  · intro i j hnot
    have hd : tallyDelta opts g rd i j = 0 := by
      cases hoff : offset_to_gcoord rd g with
      | none => exact tallyDelta_none opts g rd i j hoff
      | some o =>
        rw [tallyDelta_some opts g rd i j o hoff, if_neg]
        rintro ⟨h1, h2, h3, h4, hi, hj⟩
        exact hnot ⟨o, hoff, h1, h2, h3, h4, hi, hj⟩
    rw [tallyRead_apply, hd]
    omega
  · intro hpos hrdlen
    funext i j
    have hd : tallyDelta opts g rd i j = 0 := by
      cases hoff : offset_to_gcoord rd g with
      | none => exact tallyDelta_none opts g rd i j hoff
      | some o =>
        rw [tallyDelta_some opts g rd i j o hoff, if_neg]
        rintro ⟨h1, _⟩
        omega
    rw [tallyRead_apply, hd]
    omega
  · intro hmis
    funext i j
    have hd : tallyDelta opts g rd i j = 0 := by
      cases hoff : offset_to_gcoord rd g with
      | none => exact tallyDelta_none opts g rd i j hoff
      | some o =>
        rw [tallyDelta_some opts g rd i j o hoff, if_neg]
        rintro ⟨_, _, h3, _⟩
        omega
    rw [tallyRead_apply, hd]
    omega

/-- Closed instance of `tallyRead_iff`: a read with 2 mismatches under a
maximum of 1 is never tallied. -/
theorem tallyRead_iff_witness :
    tallyRead ⟨27, 34, 1⟩ matZero 100 ⟨[100, 101], false, 30, 2⟩ = matZero :=
  (tallyRead_iff ⟨27, 34, 1⟩ matZero 100 ⟨[100, 101], false, 30, 2⟩).2.2.2 (by decide)

/-- C10: for a read passing all four filters, and whose covered-position
count is at most `rdlen + nmis`, the increment indices are inside the
allocated shape `(maxrdlen + 1 - minrdlen) × maxrdlen` of the tally
matrix, so the write is in bounds. -/
theorem tally_indices_in_bounds (opts : Opts) (rd : Read) (g o : Nat)
    (h1 : opts.minrdlen ≤ rd.rdlen) (h2 : rd.rdlen ≤ opts.maxrdlen)
    (h3 : rd.nmis ≤ opts.max5mis) (h4 : offset_to_gcoord rd g = some o)
    (h5 : rd.nmis ≤ o) (h6 : rd.positions.length ≤ rd.rdlen + rd.nmis) :
    rd.rdlen - opts.minrdlen < opts.maxrdlen + 1 - opts.minrdlen
      ∧ o - rd.nmis < opts.maxrdlen := by
  have ho : o < rd.positions.length := offset_to_gcoord_lt_length rd g o h4
  omega

/-- Closed instance of `tally_indices_in_bounds` at a concrete passing
read. -/
theorem tally_indices_in_bounds_witness :
    (30 : Nat) - 27 < 34 + 1 - 27 ∧ (0 : Nat) - 0 < 34 :=
  tally_indices_in_bounds ⟨27, 34, 1⟩ ⟨[100, 101], false, 30, 0⟩ 100 0
    (by decide) (by decide) (by decide) (by decide) (by decide) (by decide)

/- Reduction of the per-unit matrices. -/

theorem foldl_matAdd_apply (l : List MatF) (acc : MatF) (i j : Nat) :
    (l.foldl matAdd acc) i j = acc i j + (l.map (fun m => m i j)).sum := by
  induction l generalizing acc with
  | nil => simp
  | cons m ms ih =>
    rw [List.foldl_cons, ih (matAdd acc m)]
    have hadd : matAdd acc m i j = acc i j + m i j := rfl
    rw [hadd]
    simp only [List.map_cons, List.sum_cons]
    rw [Nat.add_assoc]

theorem matSum_apply (l : List MatF) (i j : Nat) :
    matSum l i j = (l.map (fun m => m i j)).sum := by
  unfold matSum
  rw [foldl_matAdd_apply]
  simp [matZero]

/-- C6: reducing a collection of tally matrices by element-wise addition
in any permutation of order yields an identical aggregate matrix. -/
theorem matSum_perm (l1 l2 : List MatF) (h : l1.Perm l2) : matSum l1 = matSum l2 := by
  funext i j
  rw [matSum_apply, matSum_apply]
  exact (h.map (fun m => m i j)).sum_eq

/-- Closed instance of `matSum_perm` on two concrete matrices in swapped
order. -/
theorem matSum_perm_witness :
    matSum [((fun i _ => i) : MatF), ((fun _ j => j) : MatF)]
      = matSum [((fun _ j => j) : MatF), ((fun i _ => i) : MatF)] :=
  matSum_perm _ _ (List.Perm.swap _ _ _)

theorem getD_mem_of_lt {α : Type} (l : List α) (d : α) (i : Nat) (hi : i < l.length) :
    l.getD i d ∈ l := by
  rw [List.getD_eq_getElem l d hi]
  exact List.getElem_mem hi

/-- C1: on every aggregate tally matrix (nonempty, rows of length
`maxrdlen`), the resolver picks as master the first row of maximum total
count, as master offset the index of the maximum value within that row,
and resolves every row's offset as
`master_offset + bestLag + 1 - maxrdlen`, where `bestLag` is the argmax
of the `2 * maxrdlen - 1`-point full cross-correlation of the row against
the master row. -/
theorem offsets_resolver_spec (m : List (List Nat)) (L : Nat)
    (hne : m ≠ []) (hrows : ∀ row ∈ m, row.length = L) :
    (master_rdlen_idx m < m.length)
    ∧ (∀ r ∈ m, r.sum ≤ (m.getD (master_rdlen_idx m) []).sum)
    ∧ (∀ j, j < master_rdlen_idx m →
        (m.getD j []).sum < (m.getD (master_rdlen_idx m) []).sum)
    ∧ (∀ j, j < L →
        (m.getD (master_rdlen_idx m) []).getD j 0
          ≤ (m.getD (master_rdlen_idx m) []).getD (master_offset m) 0)
    ∧ (∀ i, i < m.length →
        (correlateFull (m.getD i []) (m.getD (master_rdlen_idx m) [])).length = 2 * L - 1
        ∧ (∀ k, k < 2 * L - 1 →
            (correlateFull (m.getD i []) (m.getD (master_rdlen_idx m) [])).getD k 0
              ≤ (correlateFull (m.getD i []) (m.getD (master_rdlen_idx m) [])).getD
                  (argmaxL (correlateFull (m.getD i []) (m.getD (master_rdlen_idx m) []))) 0)
        ∧ (offsets m L).getD i 0
            = (master_offset m : Int)
              + (argmaxL (correlateFull (m.getD i []) (m.getD (master_rdlen_idx m) [])) : Int)
              + 1 - (L : Int)) := by
  have hmapne : m.map (fun row => row.sum) ≠ [] := by
    simpa using hne
  have hidx : master_rdlen_idx m < m.length := by
    have := argmaxL_lt_length _ hmapne
    simpa [master_rdlen_idx] using this
  have hmaster_mem : m.getD (master_rdlen_idx m) [] ∈ m := getD_mem_of_lt m [] _ hidx
  have hmaster_len : (m.getD (master_rdlen_idx m) []).length = L := hrows _ hmaster_mem
  have hsum_at : ∀ i, i < m.length →
      (m.map (fun row => row.sum)).getD i 0 = (m.getD i []).sum := by
    intro i hi
    exact getD_map_of_lt _ m i hi 0 []
  refine ⟨hidx, ?_, ?_, ?_, ?_⟩
  · intro r hr
    obtain ⟨i, hi, rfl⟩ := List.mem_iff_getElem.mp hr
    have h1 := argmaxL_is_max (m.map (fun row => row.sum)) i (by simpa using hi)
    rw [hsum_at i hi, hsum_at _ (by simpa [master_rdlen_idx] using hidx)] at h1
    rw [List.getD_eq_getElem m [] hi] at h1
    exact h1
  · intro j hj
    have hj2 : j < argmaxL (m.map (fun row => row.sum)) := hj
    have h1 := argmaxL_first (m.map (fun row => row.sum)) j hj2
    have hjlen : j < m.length := lt_trans hj hidx
    rw [hsum_at j hjlen, hsum_at _ (by simpa [master_rdlen_idx] using hidx)] at h1
    exact h1
  · intro j hj
    exact argmaxL_is_max (m.getD (master_rdlen_idx m) []) j (by omega)
  · intro i hi
    have hrow_len : (m.getD i []).length = L := hrows _ (getD_mem_of_lt m [] i hi)
    have hclen : (correlateFull (m.getD i []) (m.getD (master_rdlen_idx m) [])).length
        = 2 * L - 1 := by
      unfold correlateFull
      rw [List.length_map, List.length_range, hrow_len, hmaster_len]
      omega
    refine ⟨hclen, ?_, ?_⟩
    · intro k hk
      exact argmaxL_is_max _ k (by omega)
    · unfold offsets
      rw [getD_map_of_lt _ m i hi 0 []]

/-- Closed instance of `offsets_resolver_spec`. -/
theorem offsets_resolver_spec_witness :
    master_rdlen_idx [[1, 0], [0, 2]] < ([[1, 0], [0, 2]] : List (List Nat)).length :=
  (offsets_resolver_spec [[1, 0], [0, 2]] 2 (by decide) (by decide)).1

/-- C9: a row of zeros does not break the correlation step: its full
cross-correlation against the master row is all-zero, the argmax of that
all-zero vector is lag index 0, and the row's resolved offset is still
produced by the same formula, degenerating to
`master_offset + 1 - maxrdlen`. -/
theorem offsets_zero_row (m : List (List Nat)) (L : Nat) (i : Nat)
    (hi : i < m.length) (hz : ∀ x ∈ m.getD i [], x = 0) :
    (∀ x ∈ correlateFull (m.getD i []) (m.getD (master_rdlen_idx m) []), x = 0)
    ∧ argmaxL (correlateFull (m.getD i []) (m.getD (master_rdlen_idx m) [])) = 0
    ∧ (offsets m L).getD i 0 = (master_offset m : Int) + 1 - (L : Int) := by
  have hcorr0 : ∀ x ∈ correlateFull (m.getD i []) (m.getD (master_rdlen_idx m) []), x = 0 := by
    intro x hx
    unfold correlateFull at hx
    rw [List.mem_map] at hx
    obtain ⟨k, _, rfl⟩ := hx
    unfold corrAt
    apply Finset.sum_eq_zero
    intro j _
    split
    · rw [getD_eq_zero_of_all_zero _ hz, Nat.zero_mul]
    · rfl
  have hargmax := argmaxL_of_zero _ hcorr0
  refine ⟨hcorr0, hargmax, ?_⟩
  have hoff : (offsets m L).getD i 0
      = (master_offset m : Int)
        + (argmaxL (correlateFull (m.getD i []) (m.getD (master_rdlen_idx m) [])) : Int)
        + 1 - (L : Int) := by
    unfold offsets
    rw [getD_map_of_lt _ m i hi 0 []]
  rw [hoff, hargmax]
  simp

/-- Closed instance of `offsets_zero_row`. -/
theorem offsets_zero_row_witness :
    (offsets [[0, 0], [1, 0]] 2).getD 0 0
      = (master_offset [[0, 0], [1, 0]] : Int) + 1 - (2 : Int) :=
  (offsets_zero_row [[0, 0], [1, 0]] 2 0 (by decide) (by decide)).2.2

/-- C8 counterexample: on the failure path (an exception raised inside the
offset computation, before outputs are written — e.g. an annotation input
with no records makes line 84 reduce `sum([])` to the integer 0, so the
`.astype` call raises), the close calls of lines 103-104 never execute:
the alignment-source handles are not closed by the program. -/
theorem mainFlow_failure_not_closed : (mainFlow true).bamsClosed = false := rfl

/-- C8 (amended): the alignment-source handles are closed exactly on the
success path, after the offset table has been written; an internal failure
raised before the outputs are written skips the close calls (there is no
scoped-cleanup construct around the computation). -/
theorem mainFlow_close_iff_success (f : Bool) :
    ((mainFlow f).bamsClosed = true ↔ f = false)
    ∧ ((mainFlow f).offsetsWritten = true ↔ f = false) := by
  cases f <;> simp [mainFlow]

/- Order invariance of the tally phase. -/

theorem foldl_tallyRead_apply (opts : Opts) (g : Nat) (rds : List Read) (m : MatF)
    (i j : Nat) :
    (rds.foldl (fun m2 rd => tallyRead opts m2 g rd) m) i j
      = m i j + (rds.map (fun rd => tallyDelta opts g rd i j)).sum := by
  induction rds generalizing m with
  | nil => simp
  | cons rd rds ih =>
    rw [List.foldl_cons, ih, tallyRead_apply]
    simp only [List.map_cons, List.sum_cons]
    rw [Nat.add_assoc]

theorem map_start_sites_apply (opts : Opts) (reads : Nat → List Read)
    (gcoords : List Nat) (i j : Nat) :
    map_start_sites opts reads gcoords i j
      = (gcoords.map
          (fun g => ((reads g).map (fun rd => tallyDelta opts g rd i j)).sum)).sum := by
  unfold map_start_sites
  suffices h : ∀ m : MatF,
      (gcoords.foldl
          (fun m g => (reads g).foldl (fun m2 rd => tallyRead opts m2 g rd) m) m) i j
        = m i j + (gcoords.map
            (fun g => ((reads g).map (fun rd => tallyDelta opts g rd i j)).sum)).sum by
    have h0 := h matZero
    have hz : matZero i j = 0 := rfl
    rw [h0, hz, Nat.zero_add]
  intro m
  induction gcoords generalizing m with
  | nil => simp
  | cons g gs ih =>
    rw [List.foldl_cons, ih, foldl_tallyRead_apply]
    simp only [List.map_cons, List.sum_cons]
    rw [Nat.add_assoc]

theorem map_start_sites_perm (opts : Opts) (reads : Nat → List Read)
    (g1 g2 : List Nat) (h : g1.Perm g2) :
    map_start_sites opts reads g1 = map_start_sites opts reads g2 := by
  funext i j
  rw [map_start_sites_apply, map_start_sites_apply]
  exact (h.map _).sum_eq

theorem offset_tallies_perm (opts : Opts) (reads : Nat → List Read)
    (U1 U2 : List (List Nat))
    (h : (U1.map (fun u => Multiset.ofList u)).Perm
          (U2.map (fun u => Multiset.ofList u))) :
    offset_tallies opts reads U1 = offset_tallies opts reads U2 := by
  funext i j
  unfold offset_tallies
  rw [matSum_apply, matSum_apply]
  have key : ∀ U : List (List Nat),
      ((U.map (map_start_sites opts reads)).map (fun m => m i j)).sum
        = ((U.map (fun u => Multiset.ofList u)).map
            (fun s => (s.map
              (fun g => ((reads g).map (fun rd => tallyDelta opts g rd i j)).sum)).sum)).sum := by
    intro U
    rw [List.map_map, List.map_map]
    congr 1
    apply List.map_congr_left
    intro u _
    simp only [Function.comp]
    rw [map_start_sites_apply, Multiset.map_coe, Multiset.sum_coe]
  rw [key U1, key U2]
  exact (h.map _).sum_eq

/-- C7: the offset table output is invariant under the iteration order of
the per-unit coordinate sets and the order in which work units are
reduced: whenever the two unit lists carry the same coordinate multisets
up to permutation of units, the aggregate matrix and the formatted output
lines are identical. As `workers.map` preserves input order and matrix
addition is commutative, runs differing only in worker count fall in this
relation, so they produce byte-identical offset tables. -/
theorem pipeline_lines_perm (opts : Opts) (reads : Nat → List Read)
    (U1 U2 : List (List Nat))
    (h : (U1.map (fun u => Multiset.ofList u)).Perm
          (U2.map (fun u => Multiset.ofList u))) :
    offset_tallies opts reads U1 = offset_tallies opts reads U2
    ∧ pipeline_lines opts reads U1 = pipeline_lines opts reads U2 := by
  have hT := offset_tallies_perm opts reads U1 U2 h
  refine ⟨hT, ?_⟩
  unfold pipeline_lines
  rw [hT]

/-- Closed instance of `pipeline_lines_perm`: permuting units and the
coordinates inside a unit leaves the output lines unchanged. -/
theorem pipeline_lines_perm_witness :
    pipeline_lines ⟨1, 2, 1⟩ (fun _ => []) [[1, 2], [3]]
      = pipeline_lines ⟨1, 2, 1⟩ (fun _ => []) [[3], [2, 1]] :=
  (pipeline_lines_perm ⟨1, 2, 1⟩ (fun _ => []) [[1, 2], [3]] [[3], [2, 1]]
    (by decide)).2

/- The autocorrelation peak: the full cross-correlation of a nonzero
vector with itself attains its strict maximum at the zero-lag position
`length - 1`, so the first-occurrence argmax lands there. -/

theorem corrAt_right (a : List Nat) (s : Nat) :
    corrAt a a (a.length - 1 + s) = autocorrSum a s := by
  unfold corrAt autocorrSum
  apply Finset.sum_congr rfl
  intro j hj
  rw [Finset.mem_range] at hj
  rw [if_pos (by omega)]
  have hidx : j + (a.length - 1 + s) + 1 - a.length = j + s := by omega
  rw [hidx, Nat.mul_comm]

theorem corrAt_left (a : List Nat) (t : Nat) (ht : t ≤ a.length - 1) :
    corrAt a a (a.length - 1 - t) = autocorrSum a t := by
  rcases Nat.eq_zero_or_pos a.length with hL | hL
  · unfold corrAt autocorrSum
    rw [hL]
    simp
  unfold corrAt autocorrSum
  have step1 : (∑ j in Finset.range a.length,
      if a.length ≤ j + (a.length - 1 - t) + 1
        then a.getD (j + (a.length - 1 - t) + 1 - a.length) 0 * a.getD j 0 else 0)
      = ∑ j in Finset.range a.length,
          if t ≤ j then a.getD (j - t) 0 * a.getD j 0 else 0 := by
    apply Finset.sum_congr rfl
    intro j hj
    rw [Finset.mem_range] at hj
    by_cases hjt : t ≤ j
    · rw [if_pos (by omega), if_pos hjt]
      have hidx : j + (a.length - 1 - t) + 1 - a.length = j - t := by omega
      rw [hidx]
    · rw [if_neg (by omega), if_neg hjt]
  rw [step1]
  have step2 : (∑ j in Finset.range a.length,
      if t ≤ j then a.getD (j - t) 0 * a.getD j 0 else 0)
      = ∑ j in Finset.Ico t a.length, a.getD (j - t) 0 * a.getD j 0 := by
    rw [← Finset.sum_filter]
    apply Finset.sum_congr
    · apply Finset.ext
      intro x
      simp only [Finset.mem_filter, Finset.mem_range, Finset.mem_Ico]
      omega
    · intro x _
      rfl
  rw [step2, Finset.sum_Ico_eq_sum_range]
  have step3 : (∑ i in Finset.range (a.length - t), a.getD (t + i - t) 0 * a.getD (t + i) 0)
      = ∑ i in Finset.range (a.length - t), a.getD i 0 * a.getD (i + t) 0 := by
    apply Finset.sum_congr rfl
    intro i _
    have h1 : t + i - t = i := by omega
    have h2 : t + i = i + t := by omega
    rw [h1, h2]
  rw [step3]
  apply Finset.sum_subset
  · apply Finset.range_subset.mpr
    omega
  · intro i hi hni
    rw [Finset.mem_range] at hi
    rw [Finset.mem_range] at hni
    have : a.length ≤ i + t := by omega
    rw [List.getD_eq_default _ _ this, Nat.mul_zero]

theorem shift_sq_sum (a : List Nat) (s : Nat) :
    (∑ j in Finset.range a.length, a.getD (j + s) 0 * a.getD (j + s) 0)
      + ∑ i in Finset.range (min s a.length), a.getD i 0 * a.getD i 0
      = ∑ i in Finset.range a.length, a.getD i 0 * a.getD i 0 := by
  rcases le_or_lt s a.length with hs | hs
  · have e1 : (∑ j in Finset.range a.length, a.getD (j + s) 0 * a.getD (j + s) 0)
        = ∑ i in Finset.Ico s (s + a.length), a.getD i 0 * a.getD i 0 := by
      rw [Finset.sum_Ico_eq_sum_range]
      have : s + a.length - s = a.length := by omega
      rw [this]
      apply Finset.sum_congr rfl
      intro j _
      have : s + j = j + s := by omega
      rw [this]
    rw [e1]
    have e2 : (∑ i in Finset.Ico s (s + a.length), a.getD i 0 * a.getD i 0)
        = ∑ i in Finset.Ico s a.length, a.getD i 0 * a.getD i 0 := by
      rw [← Finset.sum_Ico_consecutive _ hs (by omega)]
      have : (∑ i in Finset.Ico a.length (s + a.length), a.getD i 0 * a.getD i 0) = 0 := by
        apply Finset.sum_eq_zero
        intro i hi
        rw [Finset.mem_Ico] at hi
        rw [List.getD_eq_default _ _ hi.1, Nat.zero_mul]
      omega
    rw [e2]
    have hmin : min s a.length = s := by omega
    rw [hmin]
    have e3 : (∑ i in Finset.range a.length, a.getD i 0 * a.getD i 0)
        = (∑ i in Finset.Ico 0 s, a.getD i 0 * a.getD i 0)
          + ∑ i in Finset.Ico s a.length, a.getD i 0 * a.getD i 0 := by
      rw [Finset.sum_Ico_consecutive _ (by omega) hs, Finset.range_eq_Ico]
    rw [e3, Finset.range_eq_Ico]
    omega
  · have e1 : (∑ j in Finset.range a.length, a.getD (j + s) 0 * a.getD (j + s) 0) = 0 := by
      apply Finset.sum_eq_zero
      intro j _
      rw [List.getD_eq_default _ _ (by omega), Nat.zero_mul]
    have hmin : min s a.length = a.length := by omega
    rw [e1, hmin, Nat.zero_add]

theorem autocorrSum_lt (a : List Nat) (hnz : ∃ x ∈ a, x ≠ 0) (s : Nat) (hs : 1 ≤ s) :
    autocorrSum a s < autocorrSum a 0 := by
  have hcast : ∀ u : Nat, (autocorrSum a u : ℤ)
      = ∑ j in Finset.range a.length, (a.getD j 0 : ℤ) * (a.getD (j + u) 0 : ℤ) := by
    intro u
    unfold autocorrSum
    push_cast
    rfl
  set A := ∑ j in Finset.range a.length, (a.getD j 0 : ℤ) * (a.getD j 0 : ℤ) with hA_def
  set B := ∑ j in Finset.range a.length,
      (a.getD (j + s) 0 : ℤ) * (a.getD (j + s) 0 : ℤ) with hB_def
  set C := ∑ i in Finset.range (min s a.length),
      (a.getD i 0 : ℤ) * (a.getD i 0 : ℤ) with hC_def
  set D := ∑ j in Finset.range a.length,
      ((a.getD j 0 : ℤ) - (a.getD (j + s) 0 : ℤ)) ^ 2 with hD_def
  set G := (autocorrSum a s : ℤ) with hG_def
  have hA : (autocorrSum a 0 : ℤ) = A := by
    rw [hcast 0, hA_def]
    apply Finset.sum_congr rfl
    intro j _
    rw [Nat.add_zero]
  have hBC : B + C = A := by
    have hnat := shift_sq_sum a s
    have hint := congrArg (fun n : ℕ => (n : ℤ)) hnat
    push_cast at hint
    rw [hB_def, hC_def, hA_def]
    exact hint
  have hD : D = A + B - 2 * G := by
    rw [hD_def]
    have expand : ∀ j ∈ Finset.range a.length,
        ((a.getD j 0 : ℤ) - (a.getD (j + s) 0 : ℤ)) ^ 2
          = (a.getD j 0 : ℤ) * (a.getD j 0 : ℤ)
            + (a.getD (j + s) 0 : ℤ) * (a.getD (j + s) 0 : ℤ)
            - 2 * ((a.getD j 0 : ℤ) * (a.getD (j + s) 0 : ℤ)) := by
      intro j _
      ring
    rw [Finset.sum_congr rfl expand, Finset.sum_sub_distrib, Finset.sum_add_distrib,
      ← Finset.mul_sum, hG_def, hcast s]
  have hD0 : 0 ≤ D := Finset.sum_nonneg (fun j _ => sq_nonneg _)
  have hC0 : 0 ≤ C := Finset.sum_nonneg (fun i _ => mul_self_nonneg _)
  have hCD : 0 < C + D := by
    rcases lt_or_eq_of_le (by omega : (0 : ℤ) ≤ C + D) with h | h
    · exact h
    exfalso
    have hC : C = 0 := by omega
    have hDz : D = 0 := by omega
    rw [hD_def] at hDz
    rw [hC_def] at hC
    have hDall := (Finset.sum_eq_zero_iff_of_nonneg
      (fun j _ => sq_nonneg ((a.getD j 0 : ℤ) - (a.getD (j + s) 0 : ℤ)))).mp hDz
    have hCall := (Finset.sum_eq_zero_iff_of_nonneg
      (fun i _ => mul_self_nonneg ((a.getD i 0 : ℤ)))).mp hC
    have heq : ∀ j, j < a.length → a.getD j 0 = a.getD (j + s) 0 := by
      intro j hj
      have h2 := hDall j (Finset.mem_range.mpr hj)
      have hsub : (a.getD j 0 : ℤ) - (a.getD (j + s) 0 : ℤ) = 0 :=
        (pow_eq_zero_iff (two_ne_zero)).mp h2
      have : (a.getD j 0 : ℤ) = (a.getD (j + s) 0 : ℤ) := by omega
      exact_mod_cast this
    have hzero_low : ∀ i, i < min s a.length → a.getD i 0 = 0 := by
      intro i hi
      have h2 := hCall i (Finset.mem_range.mpr hi)
      have : (a.getD i 0 : ℤ) = 0 := mul_self_eq_zero.mp h2
      exact_mod_cast this
    have hall : ∀ j, j < a.length → a.getD j 0 = 0 := by
      intro j
      induction j using Nat.strong_induction_on with
      | _ j ih =>
        intro hj
        by_cases hjs : j < s
        · exact hzero_low j (by omega)
        · have h1 : j - s < a.length := by omega
          have h2 := heq (j - s) h1
          have h3 : j - s + s = j := by omega
          rw [h3] at h2
          rw [← h2]
          exact ih (j - s) (by omega) h1
    obtain ⟨x, hx, hxne⟩ := hnz
    obtain ⟨idx, hidx, rfl⟩ := List.mem_iff_getElem.mp hx
    have hz := hall idx hidx
    rw [List.getD_eq_getElem a 0 hidx] at hz
    exact hxne hz
  have hkey : 2 * A - 2 * G = C + D := by omega
  have hGA : G < (autocorrSum a 0 : ℤ) := by
    rw [hA]
    omega
  rw [hG_def] at hGA
  exact_mod_cast hGA

theorem corrAt_lt_peak (a : List Nat) (hnz : ∃ x ∈ a, x ≠ 0) (k : Nat)
    (hk : k < a.length + a.length - 1) (hne : k ≠ a.length - 1) :
    corrAt a a k < corrAt a a (a.length - 1) := by
  have hL : 1 ≤ a.length := by
    obtain ⟨x, hx, _⟩ := hnz
    exact List.length_pos.mpr (List.ne_nil_of_mem hx)
  have hpeak : corrAt a a (a.length - 1) = autocorrSum a 0 := by
    have h0 := corrAt_right a 0
    rw [Nat.add_zero] at h0
    exact h0
  rcases lt_or_ge k (a.length - 1) with hlt | hge
  · have h1 := corrAt_left a (a.length - 1 - k) (by omega)
    have ht : a.length - 1 - (a.length - 1 - k) = k := by omega
    rw [ht] at h1
    rw [h1, hpeak]
    exact autocorrSum_lt a hnz _ (by omega)
  · have h1 := corrAt_right a (k - (a.length - 1))
    have ht : a.length - 1 + (k - (a.length - 1)) = k := by omega
    rw [ht] at h1
    rw [h1, hpeak]
    exact autocorrSum_lt a hnz _ (by omega)

theorem correlateFull_getD (a v : List Nat) (k : Nat)
    (hk : k < a.length + v.length - 1) :
    (correlateFull a v).getD k 0 = corrAt a v k := by
  unfold correlateFull
  have hk2 : k < ((List.range (a.length + v.length - 1)).map (corrAt a v)).length := by
    rw [List.length_map, List.length_range]
    exact hk
  rw [List.getD_eq_getElem _ _ hk2]
  simp

theorem argmax_correlateFull_self (a : List Nat) (hnz : ∃ x ∈ a, x ≠ 0) :
    argmaxL (correlateFull a a) = a.length - 1 := by
  have hL : 1 ≤ a.length := by
    obtain ⟨x, hx, _⟩ := hnz
    exact List.length_pos.mpr (List.ne_nil_of_mem hx)
  have hlen : (correlateFull a a).length = a.length + a.length - 1 := by
    unfold correlateFull
    rw [List.length_map, List.length_range]
  apply argmaxL_of_strict
  · rw [hlen]
    omega
  · intro j hj hne
    rw [hlen] at hj
    rw [correlateFull_getD a a j hj, correlateFull_getD a a (a.length - 1) (by omega)]
    exact corrAt_lt_peak a hnz j hj hne

/-- C4: a row whose count vector is identical to the master row's (and
not all zero) resolves to exactly `master_offset`: the cross-correlation
of the row against the master row is then a self-correlation, whose
first-occurrence argmax is the zero-lag index `maxrdlen - 1`, and the
affine correction `master_offset + bestLag + 1 - maxrdlen` cancels to
`master_offset`. -/
theorem offsets_row_eq_master (m : List (List Nat)) (L i : Nat)
    (hrows : ∀ row ∈ m, row.length = L) (hi : i < m.length)
    (hrow : m.getD i [] = m.getD (master_rdlen_idx m) [])
    (hnz : ∃ x ∈ m.getD i [], x ≠ 0) :
    (offsets m L).getD i 0 = (master_offset m : Int) := by
  have hlen : (m.getD i []).length = L := hrows _ (getD_mem_of_lt m [] i hi)
  have hL : 1 ≤ L := by
    obtain ⟨x, hx, _⟩ := hnz
    have := List.length_pos.mpr (List.ne_nil_of_mem hx)
    omega
  have hoff : (offsets m L).getD i 0
      = (master_offset m : Int)
        + (argmaxL (correlateFull (m.getD i []) (m.getD (master_rdlen_idx m) [])) : Int)
        + 1 - (L : Int) := by
    unfold offsets
    rw [getD_map_of_lt _ m i hi 0 []]
  rw [hoff, ← hrow, argmax_correlateFull_self _ hnz, hlen]
  have hcast : ((L - 1 : Nat) : Int) = (L : Int) - 1 := by omega
  rw [hcast]
  ring

/-- Closed instance of `offsets_row_eq_master` on the spec's example row
`[0, 0, 5, 5, 0]` duplicated as master and target. -/
theorem offsets_row_eq_master_witness :
    (offsets [[0, 0, 5, 5, 0], [0, 0, 5, 5, 0]] 5).getD 1 0
      = (master_offset [[0, 0, 5, 5, 0], [0, 0, 5, 5, 0]] : Int) :=
  offsets_row_eq_master [[0, 0, 5, 5, 0], [0, 0, 5, 5, 0]] 5 1
    (by decide) (by decide) (by decide) (by decide)
